import Mathlib

/-!
Verification of the OCIT → SUMO traffic-light compiler (ocit2SUMO.py).

The definitions below are a shallow embedding of the state-model pipeline of
`ocit2SUMO.py`: the complex-state interpretation table, state normalization,
the transition consistency corrector (`recheckGreenMinor`), the clearance
inserter (`addRedYellow`), the run-length compactor (`compactifyTransitions`)
and the phase-list assembler (`generateSumoPhases` / `appendTransition`).

Conventions used throughout:
* A per-index "complex state" is a `List Char` (the letters contributed by the
  co-located signal groups, in group-priority order).
* A normalized per-tick state vector is a `List Char`, one letter per link index.
* Fatal paths of the Python code (an `assert`, or an uncaught `IndexError` /
  `Exception` aborting the process) are modelled with `Except`.
* `Nat → Nat` stands in for the `defaultdict(lambda: 0)` duration maps.
-/

namespace OcitSumo

/-- The `SUMOSTATE_COMPLEX` table of `ocit2SUMO.py`: every observed multi-letter
combination together with the single simulator letter it reduces to. -/
def SUMOSTATE_COMPLEX : List (List Char × Char) :=
  [ (['r', 'O'], 'r'), (['O', 'r'], 'r'), (['r', 'o'], 'r'), (['r', 'G'], 'r'),
    (['G', 'o'], 'g'), (['g', 'o'], 'g'), (['g', 'O'], 'g'), (['O', 'G'], 'G'),
    (['G', 'r'], 'G'), (['G', 'O'], 'G'), (['y', 'G'], 'y'), (['y', 'o'], 'y'),
    (['y', 'O'], 'y'), (['y', 'r'], 'r'), (['u', 'G'], 'u'), (['u', 'o'], 'u'),
    (['u', 'O'], 'u'), (['u', 'r'], 'r'),
    (['r', 'r', 'o'], 'r'), (['r', 'r', 'O'], 'r'), (['r', 'O', 'o'], 'r'),
    (['r', 'G', 'o'], 'r'), (['r', 'G', 'O'], 'r'), (['r', 'O', 'O'], 'r'),
    (['r', 'o', 'O'], 'r'), (['r', 'O', 'G'], 'r'), (['O', 'O', 'r'], 'r'),
    (['O', 'G', 'o'], 'g'), (['O', 'G', 'O'], 'G'), (['O', 'r', 'O'], 'r'),
    (['g', 'O', 'o'], 'g'), (['g', 'G', 'O'], 'G'), (['G', 'o', 'o'], 'G'),
    (['G', 'o', 'O'], 'g'), (['G', 'O', 'o'], 'g'), (['G', 'O', 'O'], 'g'),
    (['g', 'o', 'O'], 'g'), (['G', 'o', 'G'], 'G'), (['G', 'O', 'G'], 'G'),
    (['G', 'G', 'O'], 'G'), (['G', 'G', 'o'], 'g'), (['G', 'r', 'O'], 'G'),
    (['r', 'G', 'G'], 'g'), (['u', 'G', 'O'], 'G'), (['u', 'o', 'O'], 'u'),
    (['u', 'G', 'G'], 'u'), (['y', 'O', 'G'], 'y'), (['y', 'G', 'o'], 'y'),
    (['y', 'G', 'O'], 'y'), (['y', 'G', 'G'], 'y'), (['O', 'g', 'o'], 'g'),
    (['O', 'g', 'O'], 'g'), (['O', 'r', 'o'], 'r'), (['O', 'r', 'r'], 'r'),
    (['O', 'G', 'r'], 'G'), (['G', 'r', 'r'], 'G'), (['r', 'g', 'O'], 'r'),
    (['r', 'g', 'o'], 'r'), (['G', 'r', 'o'], 'G'), (['O', 'r', 'G'], 'r'),
    (['u', 'O', 'G'], 'u') ]

/-- Table lookup used by `interpret_complex_state`: the exact letter sequence is
looked up in `SUMOSTATE_COMPLEX` (the Python code indexes the dict with the
joined string). -/
def lookupComplex (state : List Char) : Option Char :=
  (SUMOSTATE_COMPLEX.find? (fun e => e.1 = state)).map (fun e => e.2)

/-- Model of `interpret_complex_state` of `ocit2SUMO.py`. If all letters of the state are
the same letter (`len(state) * state[0] == state`), that letter is returned.
Otherwise the letter sequence is looked up in `SUMOSTATE_COMPLEX`; on a lookup
miss the literal state itself becomes `singleLetter`, which then has length at
least two in this branch, so `assert(False)` fires — modelled as `.error ()`.
The empty state is also an error (`state[0]` raises `IndexError`). -/
def interpret_complex_state (state : List Char) : Except Unit Char :=
  match state with
  | [] => .error ()
  | c :: rest =>
    if rest.all (fun x => x = c) then .ok c
    else
      match lookupComplex (c :: rest) with
      | some r => .ok r
      | none => .error ()

/-- The major-override test of the inner loop of `normalizeStates`:
`any(index in majorIndex for index in index2groups[i])`. -/
def majorOverrides (index2groups : Nat → List String) (majorIndex : List String)
    (i : Nat) : Bool :=
  (index2groups i).any (fun g => majorIndex.contains g)

/-- One cell of `normalizeStates`. The source first runs
`for index in index2groups[i]: if index in majorIndex: states[i] = 'G'; continue`
— but the `continue` only advances that inner loop, and the assignment below it
(`states[i] = interpret_complex_state(''.join(state), ...)`) overwrites the cell
unconditionally from the untouched loop-local `state`, so the major override
never survives. We keep the override test as a discarded computation. -/
def normalizeCell (i : Nat) (state : List Char) (index2groups : Nat → List String)
    (minorIndex : List Nat) (majorIndex : List String) : Except Unit Char :=
  let _dead := majorOverrides index2groups majorIndex i
  match interpret_complex_state state with
  | .error e => .error e
  | .ok c => .ok (if c = 'G' ∧ minorIndex.contains i then 'g' else c)

/-- Model of `normalizeStates` of `ocit2SUMO.py` (the `phaseID` argument is only used for
log messages and is dropped). Each position is reduced independently; a reduced
'G' at an index of the minor-override set is demoted to 'g'. -/
def normalizeStates (states : List (List Char)) (index2groups : Nat → List String)
    (minorIndex : List Nat) (majorIndex : List String) : Except Unit (List Char) :=
  states.enum.mapM (fun p => normalizeCell p.1 p.2 index2groups minorIndex majorIndex)

/-- The specification's reading of `normalizeStates` (spec §4.2): if any
co-located group of index i is in the major-override set, position i is forced
to 'G'; otherwise the letters are reduced via `interpret_complex_state` and a
reduced 'G' is demoted to 'g' when i is in the minor-override set. Stated here
only to compare with the behaviour of the code. -/
def normalizeStatesSpec (states : List (List Char)) (index2groups : Nat → List String)
    (minorIndex : List Nat) (majorIndex : List String) : Except Unit (List Char) :=
  states.enum.mapM (fun p =>
    if majorOverrides index2groups majorIndex p.1 then .ok 'G'
    else match interpret_complex_state p.2 with
      | .error e => .error e
      | .ok c => .ok (if c = 'G' ∧ minorIndex.contains p.1 then 'g' else c))

/-- Run-length encoding of one transition timeline, as done by
`compactifyTransitions` via `itertools.groupby`: consecutive structurally equal
tick vectors collapse into one `(duration, state)` pair. `x` is the key of the
currently open group and `n` the number of its members seen so far. -/
def rleAux (x : List Char) (n : Nat) : List (List Char) → List (Nat × List Char)
  | [] => [(n, x)]
  | y :: ys => if y = x then rleAux x (n + 1) ys else (n, x) :: rleAux y 1 ys

/-- Model of `compactifyTransitions` of `ocit2SUMO.py`, for a single transition timeline:
`[(len(g), k) for k, g in groupby(transition)]`. -/
def compactifyTransition (ticks : List (List Char)) : List (Nat × List Char) :=
  match ticks with
  | [] => []
  | x :: xs => rleAux x 1 xs

/-- Full expansion of a compacted timeline: each `(duration, state)` pair is
replaced by `duration` copies of `state`. -/
def expandTimed (timed : List (Nat × List Char)) : List (List Char) :=
  (timed.map (fun p => List.replicate p.1 p.2)).flatten

theorem expandTimed_rleAux (ys : List (List Char)) :
    ∀ (x : List Char) (n : Nat),
      expandTimed (rleAux x n ys) = List.replicate n x ++ ys := by
  induction ys with
  | nil =>
    intro x n
    simp [rleAux, expandTimed]
  | cons y ys ih =>
    intro x n
    by_cases h : y = x
    · subst h
      rw [rleAux, if_pos rfl, ih, List.replicate_succ' ]
      simp
    · rw [rleAux, if_neg h]
      have : expandTimed ((n, x) :: rleAux y 1 ys) =
          List.replicate n x ++ expandTimed (rleAux y 1 ys) := by
        simp [expandTimed]
      rw [this, ih]
      simp

/-- C7: `compactifyTransitions` run-length-encodes each per-tick timeline by
structural equality of consecutive states, and expanding every `(duration,
state)` pair by repetition reproduces the original tick sequence exactly; in
particular the ticks [r,r,r,y,y,G,G] compact to [(3,'r'),(2,'y'),(2,'G')]. -/
theorem compactify_roundtrip :
    (∀ ticks : List (List Char), expandTimed (compactifyTransition ticks) = ticks) ∧
    compactifyTransition [['r'], ['r'], ['r'], ['y'], ['y'], ['G'], ['G']] =
      [(3, ['r']), (2, ['y']), (2, ['G'])] := by
  constructor
  · intro ticks
    match ticks with
    | [] => rfl
    | x :: xs =>
      rw [compactifyTransition, expandTimed_rleAux]
      rfl
  · rfl

/-- C5: `interpret_complex_state` returns the common letter when all letters
are identical (so single-letter states are returned unchanged), otherwise the
combination table's entry for the exact letter sequence, and fails fatally when
no entry exists; ('r','O') yields 'r', ('G','G','G') yields 'G', and ('x','y')
with no table entry is a fatal assertion. -/
theorem interpret_complex_state_spec :
    (∀ (c : Char) (rest : List Char),
      interpret_complex_state (c :: rest) =
        if rest.all (fun x => x = c) then .ok c
        else match lookupComplex (c :: rest) with
          | some r => .ok r
          | none => .error ()) ∧
    (∀ c : Char, interpret_complex_state [c] = .ok c) ∧
    interpret_complex_state ['r', 'O'] = .ok 'r' ∧
    interpret_complex_state ['G', 'G', 'G'] = .ok 'G' ∧
    interpret_complex_state ['x', 'y'] = .error () := by
  refine ⟨fun c rest => rfl, fun c => ?_, rfl, rfl, rfl⟩
  simp [interpret_complex_state]

/-- C2 (divergence witness): with index 0 shared by groups "A" and "B", the
complex state ('r','G'), and "A" in the major-override set, the code reduces
index 0 to 'r' (the table entry for "rG") while the specification's reading of
`normalizeStates` forces 'G' — the override assignment is dead because the
`continue` in the inner loop never skips the subsequent reduction. -/
theorem normalizeStates_major_override_dead :
    normalizeStates [['r', 'G']] (fun i => if i = 0 then ["A", "B"] else [])
        [] ["A"] = .ok ['r'] ∧
    normalizeStatesSpec [['r', 'G']] (fun i => if i = 0 then ["A", "B"] else [])
        [] ["A"] = .ok ['G'] := by
  exact ⟨rfl, rfl⟩

/-! ## Clearance inserter (`addRedYellow`) and consistency corrector -/

/-- Overwrite of the yellow-clearance window: the Python loop
`for t2 in range(t, t + yellowDur[i]): transition[t2][i] = 'y'` run at the
boundary tick. `l` is the suffix of the column starting at the boundary tick.
When the window extends past the end of the timeline, the write raises an
uncaught `IndexError` (the process aborts), modelled as `.error ()`. -/
def writeY (yd : Nat) (l : List Char) : Except Unit (List Char) :=
  if yd ≤ l.length then .ok (List.replicate yd 'y' ++ l.drop yd) else .error ()

/-- The forward scan of `addRedYellow` for one link index: walk the ticks with
`stateBefore` initialised to the *from*-phase letter of this index; at the
first tick whose state is 'r' while `stateBefore` is 'g' or 'G', overwrite the
yellow window and stop (`break`). -/
def forwardYellowAux (prev : Char) (yd : Nat) : List Char → Except Unit (List Char)
  | [] => .ok []
  | c :: cs =>
    if c = 'r' ∧ (prev = 'g' ∨ prev = 'G') then writeY yd (c :: cs)
    else (forwardYellowAux c yd cs).map (fun rest => c :: rest)

/-- The forward (yellow before red) half of `addRedYellow` for one column. -/
def forwardYellow (col : List Char) (before : Char) (yd : Nat) : Except Unit (List Char) :=
  forwardYellowAux before yd col

/-- The state seen by the backward scan at position `t ∈ [-1, len]`: position
-1 is the *from*-phase letter, position `len` (the initial `stateAfter`) is the
*to*-phase letter. -/
def extState (col : List Char) (before after : Char) (t : Int) : Char :=
  if t < 0 then before else col.getD t.toNat after

/-- The backward scan of `addRedYellow` for one link index: the first `t`
(scanning from `len-1` down to `-1`) where the state is 'r' and the previously
scanned state (position `t+1`) is 'g' or 'G'. -/
def ryScan (col : List Char) (before after : Char) : Option Int :=
  ((List.range (col.length + 1)).map (fun k => (col.length : Int) - 1 - k)).find?
    (fun t => decide (extState col before after t = 'r' ∧
      (extState col before after (t + 1) = 'g' ∨ extState col before after (t + 1) = 'G')))

/-- The backward (red-yellow before green) half of `addRedYellow` for one
column. Only `redYellowDur[i] == 1` is handled; the write at `t+1` is wrapped
in `try/except pass`, so a boundary whose following tick is one past the end of
the timeline inserts nothing. Without the duration-1 case the loop never
breaks and never writes, i.e. the column is returned unchanged. -/
def backwardRY (col : List Char) (before after : Char) (ryd : Nat) : List Char :=
  if ryd = 1 then
    match ryScan col before after with
    | some t => if t + 1 < (col.length : Int) then col.set (t + 1).toNat 'u' else col
    | none => col
  else col

/-- The column of one link index of a transition timeline (tick-major). The
pipeline guarantees every tick vector has one letter per link index; the 'O'
default never fires on inputs satisfying that invariant (the source would
raise `IndexError` otherwise). -/
def colOf (transition : List (List Char)) (i : Nat) : List Char :=
  transition.map (fun tick => tick.getD i 'O')

/-- Write a processed column back into the tick-major timeline. -/
def setCol (transition : List (List Char)) (i : Nat) (col : List Char) : List (List Char) :=
  List.zipWith (fun tick c => tick.set i c) transition col

/-- Both clearance scans of `addRedYellow` for one link index, in source
order: the forward yellow scan, then the backward red-yellow scan on the
already-updated column. -/
def processColumn (col : List Char) (b a : Char) (yd ryd : Nat) : Except Unit (List Char) :=
  (forwardYellow col b yd).map (fun c2 => backwardRY c2 b a ryd)

/-- The loop `for i in range(0, len(statesAfter))` of `addRedYellow`. -/
def addRYGo (before after : List Char) (yd ryd : Nat → Nat) :
    List Nat → List (List Char) → Except Unit (List (List Char))
  | [], tr => .ok tr
  | i :: rest, tr =>
    match processColumn (colOf tr i) (before.getD i 'O') (after.getD i 'O') (yd i) (ryd i) with
    | .ok col2 => addRYGo before after yd ryd rest (setCol tr i col2)
    | .error e => .error e

/-- Model of `addRedYellow` of `ocit2SUMO.py` for a single transition: for every link
index of the *to*-phase vector, insert yellow clearance at the first
green-to-red boundary and red-yellow clearance at the last red-to-green
boundary. `before`/`after` are the normalized *from*/*to* phase vectors. -/
def addRedYellow (transition : List (List Char)) (before after : List Char)
    (yd ryd : Nat → Nat) : Except Unit (List (List Char)) :=
  addRYGo before after yd ryd (List.range after.length) transition

/-- The specification's reading of the forward yellow overwrite (spec §4.6):
overwrite the boundary tick and the following `yellowDur-1` ticks with 'y',
"stopping at the transition boundary without wrapping" — i.e. clamped at the
end of the timeline. Stated only to compare with the behaviour of the code. -/
def forwardYellowSpecAux (prev : Char) (yd : Nat) : List Char → List Char
  | [] => []
  | c :: cs =>
    if c = 'r' ∧ (prev = 'g' ∨ prev = 'G') then
      List.replicate (min yd (cs.length + 1)) 'y' ++ cs.drop (yd - 1)
    else c :: forwardYellowSpecAux c yd cs

/-- Clamped forward yellow overwrite, per the spec's words. -/
def forwardYellowSpec (col : List Char) (before : Char) (yd : Nat) : List Char :=
  forwardYellowSpecAux before yd col

/-- Demotion of one tick at index `i` inside `recheckGreenMinor`:
`if state[index] == 'G': state[index] = 'g'`. -/
def demoteTick (i : Nat) (tick : List Char) : List Char :=
  if tick.getD i 'O' = 'G' then tick.set i 'g' else tick

/-- One index step of `recheckGreenMinor`: indices whose *from*-phase letter is
'g' while the *to*-phase letter is not 'G' have every 'G' tick demoted. -/
def recheckStep (before after : List Char) (tr : List (List Char)) (i : Nat) :
    List (List Char) :=
  if before.getD i 'O' = 'g' ∧ after.getD i 'O' ≠ 'G' then tr.map (demoteTick i)
  else tr

/-- Model of `recheckGreenMinor` of `ocit2SUMO.py` for a single transition. The Python
loop `for index, (before, after) in enumerate(zip(beforeStates, afterStates))`
ranges over the first `min` indices of the two phase vectors. Demotions are
only logged, never rejected — the function is total. -/
def recheckGreenMinor (transition : List (List Char)) (before after : List Char) :
    List (List Char) :=
  (List.range (min before.length after.length)).foldl (recheckStep before after) transition

/-! ## Transition synthesis (`parseTransitions`) -/

/-- The switching duration of `parseTransitions`:
`duration = max(1, int(textNode(switching, SWITCHING_DURATION)))`. -/
def parseTransitionDuration (declared : Int) : Int := max 1 declared

/-- The seeded timeline of `parseTransitions`:
`transitionStates = [deepcopy(initialState) for t in range(duration)]`. -/
def initialTransitionStates (initialState : List (List Char)) (declared : Int) :
    List (List (List Char)) :=
  List.replicate (parseTransitionDuration declared).toNat initialState

/-- The per-(index, slot) effect of one switching element of
`parseTransitions`: first the element's initial letter is written to every
tick, then every declared switch event `(switchTime, letter)` overwrites all
ticks from `switchTime` to the end, in declared order (last write wins). -/
def seedIndexTimeline (duration : Nat) (initial : Char) (events : List (Nat × Char)) :
    List Char :=
  events.foldl
    (fun tl e => tl.mapIdx (fun t c => if e.1 ≤ t then e.2 else c))
    (List.replicate duration initial)

/-! ## Helper lemmas about indexed list updates -/

theorem getD_default_irrel {α : Type} :
    ∀ (l : List α) (k : Nat), k < l.length → ∀ d d' : α, l.getD k d = l.getD k d' := by
  intro l
  induction l with
  | nil => intro k hk; simp at hk
  | cons x xs ih =>
    intro k hk d d'
    cases k with
    | zero => rfl
    | succ k => simpa using ih k (by simpa using hk) d d'

theorem getD_of_length_le {α : Type} :
    ∀ (l : List α) (k : Nat), l.length ≤ k → ∀ d : α, l.getD k d = d := by
  intro l
  induction l with
  | nil => intro k _ d; rfl
  | cons x xs ih =>
    intro k hk d
    cases k with
    | zero => simp at hk
    | succ k => simpa using ih k (by simpa using hk) d

theorem getD_set_self {α : Type} :
    ∀ (l : List α) (i : Nat) (a d : α),
      (l.set i a).getD i d = if i < l.length then a else d := by
  intro l
  induction l with
  | nil => intro i a d; simp
  | cons x xs ih =>
    intro i a d
    cases i with
    | zero => simp
    | succ k => simpa using ih k a d

theorem getD_set_ne {α : Type} :
    ∀ (l : List α) (j i : Nat), j ≠ i → ∀ (a d : α),
      (l.set j a).getD i d = l.getD i d := by
  intro l
  induction l with
  | nil => intro j i _ a d; simp
  | cons x xs ih =>
    intro j i hji a d
    cases j with
    | zero =>
      cases i with
      | zero => exact absurd rfl hji
      | succ k => simp
    | succ j' =>
      cases i with
      | zero => simp
      | succ k => simpa using ih j' k (by omega) a d

theorem exists_of_mem_zipWith {α β γ : Type} (f : α → β → γ) :
    ∀ (l1 : List α) (l2 : List β) (x : γ), x ∈ List.zipWith f l1 l2 →
      ∃ a b, a ∈ l1 ∧ b ∈ l2 ∧ x = f a b := by
  intro l1
  induction l1 with
  | nil => intro l2 x h; simp at h
  | cons a l1 ih =>
    intro l2 x h
    cases l2 with
    | nil => simp at h
    | cons b l2 =>
      rw [List.zipWith_cons_cons] at h
      rcases List.mem_cons.mp h with h | h
      · exact ⟨a, b, List.mem_cons_self _ _, List.mem_cons_self _ _, h⟩
      · rcases ih l2 x h with ⟨a', b', ha, hb, hx⟩
        exact ⟨a', b', List.mem_cons_of_mem _ ha, List.mem_cons_of_mem _ hb, hx⟩

/-! ## The post-correction invariant (C4) -/

/-- No tick of the (tick-major) timeline shows major green 'G' at index `i`. -/
def noG (tr : List (List Char)) (i : Nat) : Prop :=
  ∀ tick ∈ tr, tick.getD i 'O' ≠ 'G'

theorem demoteTick_getD_ne_G (i : Nat) (tick : List Char) :
    (demoteTick i tick).getD i 'O' ≠ 'G' := by
  unfold demoteTick
  by_cases h : tick.getD i 'O' = 'G'
  · rw [if_pos h, getD_set_self]
    by_cases hl : i < tick.length
    · simp [hl]
    · rw [getD_of_length_le tick i (by omega) 'O'] at h
      simp at h
  · rw [if_neg h]
    exact h

theorem demoteTick_getD_other (j i : Nat) (hji : j ≠ i) (tick : List Char) :
    (demoteTick j tick).getD i 'O' = tick.getD i 'O' := by
  unfold demoteTick
  split
  · exact getD_set_ne tick j i hji 'g' 'O'
  · rfl

theorem recheckStep_preserve (b a : List Char) (i : Nat)
    (tr : List (List Char)) (j : Nat) (h : noG tr i) : noG (recheckStep b a tr j) i := by
  unfold recheckStep
  split
  · intro tick htick
    rcases List.mem_map.mp htick with ⟨t0, ht0, rfl⟩
    by_cases hji : j = i
    · subst hji; exact demoteTick_getD_ne_G _ _
    · rw [demoteTick_getD_other j i hji]; exact h t0 ht0
  · exact h

theorem recheckStep_establish (b a : List Char) (i : Nat) (tr : List (List Char))
    (hb : b.getD i 'O' = 'g') (ha : a.getD i 'O' ≠ 'G') :
    noG (recheckStep b a tr i) i := by
  unfold recheckStep
  rw [if_pos ⟨hb, ha⟩]
  intro tick htick
  rcases List.mem_map.mp htick with ⟨t0, _, rfl⟩
  exact demoteTick_getD_ne_G _ _

theorem foldl_recheckStep_preserve (b a : List Char) (i : Nat) :
    ∀ (l : List Nat) (tr : List (List Char)), noG tr i →
      noG (List.foldl (recheckStep b a) tr l) i := by
  intro l
  induction l with
  | nil => intro tr h; exact h
  | cons j l ih => intro tr h; exact ih _ (recheckStep_preserve b a i tr j h)

theorem foldl_recheckStep_establish (b a : List Char) (i : Nat)
    (hb : b.getD i 'O' = 'g') (ha : a.getD i 'O' ≠ 'G') :
    ∀ (l : List Nat) (tr : List (List Char)), i ∈ l →
      noG (List.foldl (recheckStep b a) tr l) i := by
  intro l
  induction l with
  | nil => intro tr h; cases h
  | cons j l ih =>
    intro tr h
    by_cases hji : i = j
    · subst hji
      exact foldl_recheckStep_preserve b a i l _ (recheckStep_establish b a i tr hb ha)
    · rcases List.mem_cons.mp h with h1 | h2
      · exact absurd h1 hji
      · exact ih _ h2

theorem mem_writeY (yd : Nat) (l out : List Char) (h : writeY yd l = .ok out) :
    ∀ c ∈ out, c ∈ l ∨ c = 'y' := by
  unfold writeY at h
  split at h
  · injection h with h
    subst h
    intro c hc
    rcases List.mem_append.mp hc with h1 | h1
    · right; exact List.eq_of_mem_replicate h1
    · left; exact List.drop_subset _ _ h1
  · cases h

theorem forwardYellowAux_mem :
    ∀ (col : List Char) (prev : Char) (yd : Nat) (out : List Char),
      forwardYellowAux prev yd col = .ok out → ∀ c ∈ out, c ∈ col ∨ c = 'y' := by
  intro col
  induction col with
  | nil =>
    intro prev yd out h c hc
    injection h with h
    subst h
    simp at hc
  | cons x xs ih =>
    intro prev yd out h c hc
    rw [forwardYellowAux] at h
    split at h
    · exact mem_writeY yd (x :: xs) out h c hc
    · cases haux : forwardYellowAux x yd xs with
      | error e => rw [haux] at h; cases h
      | ok rest =>
        rw [haux] at h
        injection h with h
        subst h
        rcases List.mem_cons.mp hc with h1 | h1
        · left; subst h1; exact List.mem_cons_self _ _
        · rcases ih x yd rest haux c h1 with h2 | h2
          · left; exact List.mem_cons_of_mem _ h2
          · right; exact h2

theorem mem_backwardRY (col : List Char) (b a : Char) (ryd : Nat) :
    ∀ c ∈ backwardRY col b a ryd, c ∈ col ∨ c = 'u' := by
  unfold backwardRY
  split
  · split
    · split
      · intro c hc
        rcases List.mem_or_eq_of_mem_set hc with h | h
        · left; exact h
        · right; exact h
      · intro c hc; left; exact hc
    · intro c hc; left; exact hc
  · intro c hc; left; exact hc

theorem processColumn_noG (col : List Char) (b a : Char) (yd ryd : Nat) (out : List Char)
    (h : processColumn col b a yd ryd = .ok out) (hcol : ∀ c ∈ col, c ≠ 'G') :
    ∀ c ∈ out, c ≠ 'G' := by
  unfold processColumn at h
  cases hf : forwardYellow col b yd with
  | error e => rw [hf] at h; cases h
  | ok mid =>
    rw [hf] at h
    injection h with h
    subst h
    intro c hc
    rcases mem_backwardRY mid b a ryd c hc with h1 | h1
    · rcases forwardYellowAux_mem col b yd mid hf c h1 with h2 | h2
      · exact hcol c h2
      · subst h2; decide
    · subst h1; decide

theorem addRYGo_noG (before after : List Char) (yd ryd : Nat → Nat) (i : Nat) :
    ∀ (l : List Nat) (tr tr2 : List (List Char)),
      addRYGo before after yd ryd l tr = .ok tr2 → noG tr i → noG tr2 i := by
  intro l
  induction l with
  | nil =>
    intro tr tr2 h hP
    injection h with h
    subst h
    exact hP
  | cons j l ih =>
    intro tr tr2 h hP
    rw [addRYGo] at h
    cases hp : processColumn (colOf tr j) (before.getD j 'O') (after.getD j 'O') (yd j) (ryd j) with
    | error e => rw [hp] at h; cases h
    | ok col2 =>
      rw [hp] at h
      refine ih _ _ h ?_
      intro tick htick
      rcases exists_of_mem_zipWith _ tr col2 tick htick with ⟨t0, c0, ht0, hc0, rfl⟩
      by_cases hji : j = i
      · subst hji
        rw [getD_set_self]
        split
        · refine processColumn_noG _ _ _ _ _ _ hp ?_ c0 hc0
          intro c hcmem
          rcases List.mem_map.mp hcmem with ⟨tk, htk, rfl⟩
          exact hP tk htk
        · decide
      · rw [getD_set_ne _ _ _ hji]
        exact hP t0 ht0

/-- C4: for every transition and every link index whose *from*-phase reduced
letter is 'g' and whose *to*-phase reduced letter is not 'G', no tick shows 'G'
at that index after `recheckGreenMinor` — and the invariant still holds after
the subsequent clearance insertion (`addRedYellow` writes only 'y' and 'u').
The corrector is total: inconsistencies are demoted, never rejected. -/
theorem recheck_then_clearance_no_major_green
    (transition : List (List Char)) (before after : List Char) (yd ryd : Nat → Nat)
    (i : Nat) (hi1 : i < before.length) (hi2 : i < after.length)
    (hb : before.getD i 'O' = 'g') (ha : after.getD i 'O' ≠ 'G') :
    noG (recheckGreenMinor transition before after) i ∧
    ∀ tr2, addRedYellow (recheckGreenMinor transition before after) before after yd ryd
        = .ok tr2 → noG tr2 i := by
  have h1 : noG (recheckGreenMinor transition before after) i := by
    unfold recheckGreenMinor
    exact foldl_recheckStep_establish before after i hb ha _ _
      (List.mem_range.mpr (by omega))
  exact ⟨h1, fun tr2 h2 => addRYGo_noG before after yd ryd i _ _ _ h2 h1⟩

theorem recheck_then_clearance_no_major_green_witness :
    noG (recheckGreenMinor [['G']] ['g'] ['r']) 0 :=
  (recheck_then_clearance_no_major_green [['G']] ['g'] ['r'] (fun _ => 0) (fun _ => 0) 0
    (by decide) (by decide) (by decide) (by decide)).1

/-! ## Red-yellow insertion example (C6) and the forward yellow scan (C3) -/

/-- C6: a transition of duration 4 whose single-index timeline is seeded all
'r' by `parseTransitions`, with one switch event at time 2 to 'G', yields the
ticks [r, r, u, G] after clearance insertion when `redYellowDur` is 1 at that
index — the backward scan overwrites exactly the tick after the last red
before the green with 'u' — and the timeline is left unchanged for every other
`redYellowDur` value. -/
theorem addRedYellow_redYellow_unit_example (d : Nat) :
    addRedYellow ((seedIndexTimeline 4 'r' [(2, 'G')]).map (fun c => [c]))
        ['r'] ['G'] (fun _ => 0) (fun _ => d) =
      .ok (if d = 1 then [['r'], ['r'], ['u'], ['G']]
           else [['r'], ['r'], ['G'], ['G']]) := by
  by_cases h : d = 1
  · subst h
    rfl
  · rw [if_neg h]
    have hb : backwardRY ['r', 'r', 'G', 'G'] 'r' 'G' d = ['r', 'r', 'G', 'G'] := by
      unfold backwardRY
      exact if_neg h
    have hp : processColumn (colOf [['r'], ['r'], ['G'], ['G']] 0)
        (['r'].getD 0 'O') (['G'].getD 0 'O') 0 d
        = .ok (backwardRY ['r', 'r', 'G', 'G'] 'r' 'G' d) := rfl
    rw [hb] at hp
    show addRYGo ['r'] ['G'] (fun _ => 0) (fun _ => d) [0]
      [['r'], ['r'], ['G'], ['G']] = .ok [['r'], ['r'], ['G'], ['G']]
    rw [addRYGo, hp]
    rfl

/-- C3 (divergence witness): a one-tick transition whose only tick is 'r' at an
index whose *from*-phase letter is 'G', with `yellowDur = 2` at that index:
the yellow window extends one tick past the end of the timeline, and the code
raises an uncaught `IndexError` (modelled `.error ()`) instead of stopping at
the transition boundary; the spec's clamped overwrite would produce ['y']. -/
theorem addRedYellow_overflow_aborts :
    addRedYellow [['r']] ['G'] ['r'] (fun _ => 2) (fun _ => 0) = .error () ∧
    forwardYellowSpec ['r'] 'G' 2 = ['y'] :=
  ⟨rfl, rfl⟩

/-- The state scanned just before position `s` by the forward scan of
`addRedYellow`: the *from*-phase letter for `s = 0`, else the previous tick. -/
def prevState (prev : Char) (col : List Char) (s : Nat) : Char :=
  if s = 0 then prev else col.getD (s - 1) prev

/-- Position `s` is a green-to-red boundary of the forward scan: its state is
'r' and the previously scanned state is 'g' or 'G'. -/
def boundaryAt (prev : Char) (col : List Char) (s : Nat) : Prop :=
  col.get? s = some 'r' ∧ (prevState prev col s = 'g' ∨ prevState prev col s = 'G')

theorem boundaryAt_cons_zero (prev c : Char) (cs : List Char) :
    boundaryAt prev (c :: cs) 0 ↔ (c = 'r' ∧ (prev = 'g' ∨ prev = 'G')) := by
  unfold boundaryAt prevState
  simp

theorem boundaryAt_cons_succ (prev c : Char) (cs : List Char) (s : Nat) :
    boundaryAt prev (c :: cs) (s + 1) ↔ boundaryAt c cs s := by
  unfold boundaryAt
  constructor
  · rintro ⟨h1, h2⟩
    rw [List.get?_cons_succ] at h1
    refine ⟨h1, ?_⟩
    have hs : s < cs.length := by
      have := List.get?_eq_some.mp h1
      exact this.1
    cases s with
    | zero => simpa [prevState] using h2
    | succ k =>
      have : prevState prev (c :: cs) (k + 2) = prevState c cs (k + 1) := by
        unfold prevState
        simp only [Nat.succ_ne_zero, if_false]
        show (c :: cs).getD (k + 1) prev = cs.getD k c
        rw [List.getD_cons_succ]
        exact getD_default_irrel cs k (by omega) prev c
      rw [← this]
      exact h2
  · rintro ⟨h1, h2⟩
    refine ⟨by simpa using h1, ?_⟩
    have hs : s < cs.length := by
      have := List.get?_eq_some.mp h1
      exact this.1
    cases s with
    | zero => simpa [prevState] using h2
    | succ k =>
      have : prevState prev (c :: cs) (k + 2) = prevState c cs (k + 1) := by
        unfold prevState
        simp only [Nat.succ_ne_zero, if_false]
        show (c :: cs).getD (k + 1) prev = cs.getD k c
        rw [List.getD_cons_succ]
        exact getD_default_irrel cs k (by omega) prev c
      rw [this]
      exact h2

/-- C3 amended: per link index, the forward scan of `addRedYellow` finds the
first tick whose state is 'r' while the previously scanned state was 'g' or
'G' and overwrites exactly that tick and the following `yellowDur - 1` ticks
with 'y'; the scan never wraps, but when that window extends past the end of
the timeline the code aborts with an uncaught `IndexError` instead of clamping
at the boundary. With no such boundary the column is unchanged. -/
theorem forwardYellow_first_boundary (col : List Char) (prev : Char) (yd : Nat) :
    ((∀ s, ¬ boundaryAt prev col s) → forwardYellow col prev yd = .ok col) ∧
    (∀ t, boundaryAt prev col t → (∀ s, s < t → ¬ boundaryAt prev col s) →
      forwardYellow col prev yd =
        if t + yd ≤ col.length then
          .ok (col.take t ++ List.replicate yd 'y' ++ col.drop (t + yd))
        else .error ()) := by
  induction col generalizing prev with
  | nil =>
    refine ⟨fun _ => rfl, fun t hb _ => ?_⟩
    rcases hb with ⟨h1, _⟩
    simp at h1
  | cons c cs ih =>
    constructor
    · intro hno
      have hhead : ¬ (c = 'r' ∧ (prev = 'g' ∨ prev = 'G')) := by
        intro hc
        exact hno 0 ((boundaryAt_cons_zero prev c cs).mpr hc)
      have hrest : forwardYellowAux c yd cs = .ok cs := by
        refine (ih c).1 (fun s hs => ?_)
        exact hno (s + 1) ((boundaryAt_cons_succ prev c cs s).mpr hs)
      show forwardYellowAux prev yd (c :: cs) = .ok (c :: cs)
      rw [forwardYellowAux, if_neg hhead, hrest]
      rfl
    · intro t hb hmin
      cases t with
      | zero =>
        have hc := (boundaryAt_cons_zero prev c cs).mp hb
        show forwardYellowAux prev yd (c :: cs) = _
        rw [forwardYellowAux, if_pos hc]
        unfold writeY
        by_cases hyd : yd ≤ (c :: cs).length
        · rw [if_pos hyd, if_pos (by simpa using hyd)]
          simp
        · rw [if_neg hyd, if_neg (by simpa using hyd)]
      | succ s =>
        have hhead : ¬ (c = 'r' ∧ (prev = 'g' ∨ prev = 'G')) := by
          intro hc
          exact hmin 0 (by omega) ((boundaryAt_cons_zero prev c cs).mpr hc)
        have hb' : boundaryAt c cs s := (boundaryAt_cons_succ prev c cs s).mp hb
        have hmin' : ∀ s', s' < s → ¬ boundaryAt c cs s' := by
          intro s' hs' hbs
          exact hmin (s' + 1) (by omega) ((boundaryAt_cons_succ prev c cs s').mpr hbs)
        have hrest : forwardYellowAux c yd cs =
            (if s + yd ≤ cs.length then
              .ok (cs.take s ++ List.replicate yd 'y' ++ cs.drop (s + yd))
            else .error ()) := (ih c).2 s hb' hmin'
        show forwardYellowAux prev yd (c :: cs) = _
        rw [forwardYellowAux, if_neg hhead]
        show (forwardYellowAux c yd cs).map (fun rest => c :: rest) = _
        rw [hrest]
        by_cases hyd : s + yd ≤ cs.length
        · rw [if_pos hyd, if_pos (by simp; omega), List.take_succ_cons,
            show s + 1 + yd = s + yd + 1 from by omega, List.drop_succ_cons]
          rfl
        · rw [if_neg hyd, if_neg (by simp; omega)]
          rfl

theorem forwardYellow_first_boundary_witness :
    forwardYellow ['G', 'r'] 'G' 1 = .ok ['G', 'y'] := by
  have h := (forwardYellow_first_boundary ['G', 'r'] 'G' 1).2 1
    ⟨rfl, Or.inr rfl⟩
    (by
      intro s hs hbs
      have hs0 : s = 0 := by omega
      subst hs0
      rw [boundaryAt_cons_zero] at hbs
      simp at hbs)
  simpa using h

/-- C10: `parseTransitions` clamps the switching duration to at least 1
(`duration = max(1, declared)`), so the seeded timeline — and with it every
per-index timeline produced by overlaying switch events — is non-empty even
when the authored duration is zero or negative. -/
theorem transition_duration_clamped (initialState : List (List Char)) (declared : Int)
    (initial : Char) (events : List (Nat × Char)) :
    1 ≤ parseTransitionDuration declared ∧
    (initialTransitionStates initialState declared).length =
      (parseTransitionDuration declared).toNat ∧
    initialTransitionStates initialState declared ≠ [] ∧
    (seedIndexTimeline (parseTransitionDuration declared).toNat initial events).length =
      (parseTransitionDuration declared).toNat ∧
    seedIndexTimeline (parseTransitionDuration declared).toNat initial events ≠ [] := by
  have h1 : 1 ≤ parseTransitionDuration declared := le_max_left 1 declared
  have h1n : 1 ≤ (parseTransitionDuration declared).toNat := by
    unfold parseTransitionDuration at h1 ⊢
    omega
  have hlen : (initialTransitionStates initialState declared).length =
      (parseTransitionDuration declared).toNat := by
    unfold initialTransitionStates
    simp
  have hseedlen : ∀ (n : Nat) (evs : List (Nat × Char)),
      (seedIndexTimeline n initial evs).length = n := by
    intro n evs
    unfold seedIndexTimeline
    have : ∀ (evs : List (Nat × Char)) (l : List Char),
        (evs.foldl (fun tl e => tl.mapIdx (fun t c => if e.1 ≤ t then e.2 else c)) l).length
          = l.length := by
      intro evs
      induction evs with
      | nil => intro l; rfl
      | cons e evs ih => intro l; rw [List.foldl_cons, ih]; simp
    rw [this]
    simp
  refine ⟨h1, hlen, ?_, hseedlen _ events, ?_⟩
  · intro hnil
    rw [hnil] at hlen
    simp at hlen
    omega
  · intro hnil
    have := hseedlen (parseTransitionDuration declared).toNat events
    rw [hnil] at this
    simp at this
    omega

/-! ## Phase-list assembly (`compactifyTransitions`, `generateSumoPhases`,
`appendTransition`, `writeTLS`)

`compactifyTransitions` keys its result dict by the Python 2-tuple
`(transitionID, fromTo)` where `fromTo = (fromPhase, toPhase)`, while
`generateSumoPhases` tests `fromTo in timedTransitions` with the bare 2-tuple
`(phaseID, nextPhaseID)`. To express that dynamic comparison of differently
shaped tuples we embed the Python tuple values into a small universe `PyVal`:
a 2-tuple of strings and a pair (string, 2-tuple) are never equal. -/

/-- Dynamic (Python-style) tuple/string values, used only for the dict-key
comparisons of `generateSumoPhases`. -/
inductive PyVal where
  | str : String → PyVal
  | pair : PyVal → PyVal → PyVal
deriving DecidableEq

/-- The key `(transitionID, (fromPhase, toPhase))` under which
`compactifyTransitions` stores a compacted transition. -/
def tKey (tid f t : String) : PyVal :=
  .pair (.str tid) (.pair (.str f) (.str t))

/-- The key `(phaseID, nextPhaseID)` that `generateSumoPhases` looks up. -/
def fromToKey (f t : String) : PyVal :=
  .pair (.str f) (.str t)

/-- One entry of the transitions dict: the key `(ID, fromPhase, toPhase)` of
`parseTransitions` with its per-tick timeline (tick-major). -/
def TransEntry := (String × String × String) × List (List Char)

/-- One entry of the compacted dict produced by `compactifyTransitions`. -/
def TimedEntry := (String × String × String) × List (Nat × List Char)

/-- Model of `compactifyTransitions` of `ocit2SUMO.py`: every timeline is run-length
encoded; in Python the result is keyed by `(transitionID, (fromPhase,
toPhase))` (see `tKey`). -/
def compactifyTransitions (transitions : List TransEntry) : List TimedEntry :=
  transitions.map (fun e => (e.1, compactifyTransition e.2))

/-- One tuple of the compiled phase program:
`(dur, state, next, major, majorNext)` as appended by `generateSumoPhases` and
`appendTransition`. -/
structure PhaseTuple where
  dur : Nat
  state : String
  next : Int
  major : Int
  majorNext : Int
deriving DecidableEq

/-- Python dict lookup over our association list (a later assignment to the
same key overwrites an earlier one, hence the reversed search). -/
def dictGet (d : List (String × Nat)) (k : String) : Option Nat :=
  (d.reverse.find? (fun e => decide (e.1 = k))).map (fun e => e.2)

/-- Model of `appendTransition` of `ocit2SUMO.py`: append one tuple per compacted
`(dur, state)` pair; only the last pair looks up the destination phase's
already-assigned sumo index (`try/except` yields -1 when it is not yet
assigned). Returns the extended tuple list and the new `numPhases`. -/
def appendTransition (props : List PhaseTuple) (tt : List (Nat × List Char))
    (sIdx : List (String × Nat)) (mi : String → Int) (fromPhase toPhase : String)
    (numPhases : Nat) : List PhaseTuple × Nat :=
  (props ++ tt.enum.map (fun p =>
      ⟨p.2.1, String.mk p.2.2,
        if p.1 = tt.length - 1 then ((dictGet sIdx toPhase).map Int.ofNat).getD (-1)
        else -1,
        mi fromPhase, mi toPhase⟩),
    numPhases + tt.length)

/-- The tuple appended for one stable phase of the cycle:
`(defaultMinDur, phases[phaseID], -1, majorIndex[phaseID], 0)`. -/
def phaseTupleOf (mi : String → Int) (dmd : Nat) (phases : String → String)
    (pid : String) : PhaseTuple :=
  ⟨dmd, phases pid, -1, mi pid, 0⟩

/-- The main loop of `generateSumoPhases` over the cycle's phase IDs. `rem` is
the remaining suffix of `cycle` and `k` the current `phaseIndex`. After
emitting a phase the source tests `fromTo in timedTransitions` with the
2-tuple `(phaseID, nextPhaseID)` against keys of shape `(transitionID,
(fromPhase, toPhase))` (see `tKey`); if the test ever succeeded, the following
`transitionID, timedTransition = timedTransitions[fromTo]` unpacking of the
timed list would raise (a list of two pairs unpacks into two pairs, and
`appendTransition` then crashes iterating a pair; any other length fails the
unpacking itself), so the branch is modelled as `.error ()` — and proved
unreachable in `tKey_ne_fromToKey`. Consequently `usedTransitions` stays
empty. -/
def genLoop1 (mi : String → Int) (dmd : Nat) (phases : String → String)
    (tts : List TimedEntry) (cycle : List String) :
    List String → Nat → Nat → List PhaseTuple → List (String × Nat) →
      Except Unit (List PhaseTuple × List (String × Nat) × Nat)
  | [], _, n, props, sIdx => .ok (props, sIdx, n)
  | pid :: rest, k, n, props, sIdx =>
    let props2 := props ++ [phaseTupleOf mi dmd phases pid]
    let sIdx2 := sIdx ++ [(pid, n)]
    let nextID := cycle.getD ((k + 1) % cycle.length) ""
    if tts.any (fun e => decide (tKey e.1.1 e.1.2.1 e.1.2.2 = fromToKey pid nextID)) then
      .error ()
    else
      genLoop1 mi dmd phases tts cycle rest (k + 1) (n + 1) props2 sIdx2

/-- The trailing loop of `generateSumoPhases`: every compacted transition not
in `usedTransitions` (which is always empty, see `genLoop1`) is appended via
`appendTransition`. -/
def genLoop2 (mi : String → Int) (sIdx : List (String × Nat)) (used : List PyVal) :
    List TimedEntry → List PhaseTuple → Nat → List PhaseTuple × Nat
  | [], props, n => (props, n)
  | e :: rest, props, n =>
    if used.contains (fromToKey e.1.2.1 e.1.2.2) then
      genLoop2 mi sIdx used rest props n
    else
      let pr := appendTransition props e.2 sIdx mi e.1.2.1 e.1.2.2 n
      genLoop2 mi sIdx used rest pr.1 pr.2

/-- Model of `generateSumoPhases` of `ocit2SUMO.py` (the parallel comment strings,
which do not affect the tuples, are omitted): walk the cycle emitting one
tuple per phase, then append the transitions that were not consumed inline. -/
def generateSumoPhases (cycle : List String) (mi : String → Int) (dmd : Nat)
    (phases : String → String) (tts : List TimedEntry) :
    Except Unit (List PhaseTuple) :=
  (genLoop1 mi dmd phases tts cycle cycle 0 0 [] []).map
    (fun r => (genLoop2 mi r.2.1 [] tts r.1 r.2.2).1)

/-- The duration actually written by `writeTLS` for each tuple:
`if majorNext == 0: dur = phaseDuration`, else the stored duration. -/
def writtenDurations (props : List PhaseTuple) (phaseDuration : Nat) : List Nat :=
  props.map (fun p => if p.majorNext = 0 then phaseDuration else p.dur)

/-- Default tuple used for total indexing into the compiled program. -/
def defaultPhaseTuple : PhaseTuple := ⟨0, "", -1, 0, 0⟩

/-! ## Program rows (`parseSignalPrograms`) -/

/-- One `SPZeile` program row as consumed by `parseSignalPrograms`: the signal
group ID, the parsed `Schaltzeit` switch entries (`hasChild` holds iff at
least one is present), and the optional `DauerSignalbild` permanent state. -/
structure ProgramRow where
  sgID : String
  switches : List (Nat × Char)
  permState : Option Char
deriving DecidableEq

/-- How `parseSignalPrograms` proceeds with one program row. -/
inductive RowKind where
  | skipped
  | useSwitches
  | usePermanent
deriving DecidableEq

/-- The row dispatch of `parseSignalPrograms`: rows whose group is not in the
index map are skipped (`continue`); otherwise switch entries are preferred,
then a permanent state; a row with neither raises a fatal `Exception`. -/
def classifyProgramRow (sgKeys : List String) (row : ProgramRow) : Except String RowKind :=
  if ¬ sgKeys.contains row.sgID then .ok .skipped
  else if row.switches ≠ [] then .ok .useSwitches
  else
    match row.permState with
    | some _ => .ok .usePermanent
    | none => .error "Neither switches nor permanent signal state were given"

/-! ## C1, C9, C8 -/

/-- The dict keys written by `compactifyTransitions` — pairs
`(transitionID, (fromPhase, toPhase))` — are never equal to the 2-tuple
`(phaseID, nextPhaseID)` that `generateSumoPhases` tests for membership: the
second components have different tuple shapes. Hence the inline-transition
branch of the cycle walk is unreachable. -/
theorem tKey_ne_fromToKey (tid f t f' t' : String) :
    tKey tid f t ≠ fromToKey f' t' := by
  simp [tKey, fromToKey]

theorem genLoop1_ok (mi : String → Int) (dmd : Nat) (phases : String → String)
    (tts : List TimedEntry) (cycle : List String) :
    ∀ (rem : List String) (k n : Nat) (props : List PhaseTuple)
      (sIdx : List (String × Nat)), ∃ s,
      genLoop1 mi dmd phases tts cycle rem k n props sIdx =
        .ok (props ++ rem.map (phaseTupleOf mi dmd phases), s, n + rem.length) := by
  intro rem
  induction rem with
  | nil =>
    intro k n props sIdx
    exact ⟨sIdx, by simp [genLoop1]⟩
  | cons pid rest ih =>
    intro k n props sIdx
    have hany : tts.any (fun e =>
        decide (tKey e.1.1 e.1.2.1 e.1.2.2 =
          fromToKey pid (cycle.getD ((k + 1) % cycle.length) ""))) = false := by
      rw [List.any_eq_false]
      intro e _
      simp [tKey_ne_fromToKey]
    obtain ⟨s, hs⟩ := ih (k + 1) (n + 1) (props ++ [phaseTupleOf mi dmd phases pid])
      (sIdx ++ [(pid, n)])
    refine ⟨s, ?_⟩
    rw [genLoop1]
    simp only [hany, Bool.false_eq_true, if_false]
    rw [hs]
    simp [List.append_assoc]
    omega

theorem genLoop2_fst_prefix (mi : String → Int) (sIdx : List (String × Nat))
    (used : List PyVal) :
    ∀ (l : List TimedEntry) (props : List PhaseTuple) (n : Nat), ∃ extra,
      (genLoop2 mi sIdx used l props n).1 = props ++ extra := by
  intro l
  induction l with
  | nil => intro props n; exact ⟨[], by simp [genLoop2]⟩
  | cons e rest ih =>
    intro props n
    rw [genLoop2]
    split
    · exact ih props n
    · obtain ⟨e2, he2⟩ := ih
        (props ++ e.2.enum.map (fun p =>
          ⟨p.2.1, String.mk p.2.2,
            if p.1 = e.2.length - 1 then ((dictGet sIdx e.1.2.2).map Int.ofNat).getD (-1)
            else -1,
            mi e.1.2.1, mi e.1.2.2⟩))
        (n + e.2.length)
      refine ⟨(e.2.enum.map (fun p =>
          (⟨p.2.1, String.mk p.2.2,
            if p.1 = e.2.length - 1 then ((dictGet sIdx e.1.2.2).map Int.ofNat).getD (-1)
            else -1,
            mi e.1.2.1, mi e.1.2.2⟩ : PhaseTuple))) ++ e2, ?_⟩
      rw [← List.append_assoc, ← he2]
      rfl

theorem getD_map_of_lt {α β : Type} (f : α → β) :
    ∀ (l : List α) (k : Nat), k < l.length → ∀ (d : β) (d' : α),
      (l.map f).getD k d = f (l.getD k d') := by
  intro l
  induction l with
  | nil => intro k hk; simp at hk
  | cons x xs ih =>
    intro k hk d d'
    cases k with
    | zero => rfl
    | succ k => simpa using ih k (by simpa using hk) d d'

/-- C1: in phase-list mode the code does NOT emit a compiled transition
between consecutive cycle phases. With cycle [P1, P2] and one compiled
transition from P1 to P2, the output is the P1 tuple, the P2 tuple, and only
then the transition's compacted tuple (appended by the trailing loop, its last
tuple referencing P2's index 1): the membership test `fromTo in
timedTransitions` compares the 2-tuple (phaseID, nextPhaseID) against keys of
shape (transitionID, (fromPhase, toPhase)) and never matches. -/
theorem generateSumoPhases_transition_not_inline :
    generateSumoPhases ["P1", "P2"]
        (fun p => if p = "P1" then 1 else 2) 5
        (fun p => if p = "P1" then "GG" else "rr")
        (compactifyTransitions [(("T", "P1", "P2"), [['y', 'y']])]) =
      .ok [⟨5, "GG", -1, 1, 0⟩, ⟨5, "rr", -1, 2, 0⟩, ⟨1, "yy", 1, 1, 2⟩] := rfl

/-- C9: `writeTLS` writes `phaseDuration` for every tuple whose `majorNext`
flag is 0 — which includes every stable-phase tuple emitted by
`generateSumoPhases` (they are the first `cycle.length` tuples, each storing
`defaultMinDur` and `majorNext = 0`) — and keeps the stored compacted duration
for every tuple with a nonzero `majorNext` flag. -/
theorem writeTLS_phase_duration
    (cycle : List String) (mi : String → Int) (dmd : Nat) (phases : String → String)
    (tts : List TimedEntry) (result : List PhaseTuple) (pd : Nat) (k : Nat)
    (hres : generateSumoPhases cycle mi dmd phases tts = .ok result)
    (hk : k < cycle.length) :
    (result.getD k defaultPhaseTuple).majorNext = 0 ∧
    (result.getD k defaultPhaseTuple).dur = dmd ∧
    (writtenDurations result pd).getD k 0 = pd ∧
    (∀ j, j < result.length → (result.getD j defaultPhaseTuple).majorNext = 0 →
      (writtenDurations result pd).getD j 0 = pd) ∧
    ∀ j, (result.getD j defaultPhaseTuple).majorNext ≠ 0 →
      (writtenDurations result pd).getD j 0 = (result.getD j defaultPhaseTuple).dur := by
  obtain ⟨s, h1⟩ := genLoop1_ok mi dmd phases tts cycle cycle 0 0 [] []
  unfold generateSumoPhases at hres
  rw [h1] at hres
  simp only [Except.map, List.nil_append, Except.ok.injEq] at hres
  obtain ⟨extra, h2⟩ := genLoop2_fst_prefix mi s [] tts
    (cycle.map (phaseTupleOf mi dmd phases)) (0 + cycle.length)
  have hresult : result = cycle.map (phaseTupleOf mi dmd phases) ++ extra := by
    rw [← hres, h2]
  have hklen : k < (cycle.map (phaseTupleOf mi dmd phases)).length := by
    simpa using hk
  have hkres : k < result.length := by
    rw [hresult]
    simp only [List.length_append]
    omega
  have hget : result.getD k defaultPhaseTuple = phaseTupleOf mi dmd phases (cycle.getD k "") := by
    rw [hresult, List.getD_append _ _ _ _ hklen]
    exact getD_map_of_lt _ cycle k hk defaultPhaseTuple ""
  have hwf : ∀ j, j < result.length →
      (writtenDurations result pd).getD j 0 =
        if (result.getD j defaultPhaseTuple).majorNext = 0 then pd
        else (result.getD j defaultPhaseTuple).dur := by
    intro j hj
    unfold writtenDurations
    exact getD_map_of_lt _ result j hj 0 defaultPhaseTuple
  refine ⟨by rw [hget]; rfl, by rw [hget]; rfl, ?_, ?_, ?_⟩
  · rw [hwf k hkres, hget]
    rfl
  · intro j hjl hj0
    rw [hwf j hjl, if_pos hj0]
  · intro j hj
    by_cases hjl : j < result.length
    · rw [hwf j hjl, if_neg hj]
    · rw [getD_of_length_le result j (by omega) defaultPhaseTuple] at hj
      exact absurd rfl hj

theorem writeTLS_phase_duration_witness :
    (([⟨5, "G", -1, 1, 0⟩] : List PhaseTuple).getD 0 defaultPhaseTuple).majorNext = 0 ∧
    (([⟨5, "G", -1, 1, 0⟩] : List PhaseTuple).getD 0 defaultPhaseTuple).dur = 5 ∧
    (writtenDurations [⟨5, "G", -1, 1, 0⟩] 100).getD 0 0 = 100 := by
  have h := writeTLS_phase_duration ["P1"] (fun _ => 1) 5 (fun _ => "G") []
    [⟨5, "G", -1, 1, 0⟩] 100 0 rfl (by decide)
  exact ⟨h.1, h.2.1, h.2.2.1⟩

/-- C8: `parseSignalPrograms` raises a fatal exception for every program row
whose signal group is in the index map but which declares neither switch-time
entries nor a permanent signal state; rows for groups absent from the index
map are skipped instead. -/
theorem programRow_requires_switches_or_permanent (sgKeys : List String)
    (row : ProgramRow) :
    (row.sgID ∈ sgKeys → row.switches = [] → row.permState = none →
      classifyProgramRow sgKeys row =
        .error "Neither switches nor permanent signal state were given") ∧
    (row.sgID ∉ sgKeys → classifyProgramRow sgKeys row = .ok .skipped) := by
  constructor
  · intro h1 h2 h3
    unfold classifyProgramRow
    rw [if_neg (by simpa using h1), if_neg (by simp [h2]), h3]
  · intro h1
    unfold classifyProgramRow
    rw [if_pos (by simpa using h1)]

theorem programRow_requires_switches_or_permanent_witness :
    classifyProgramRow ["K1"] ⟨"K1", [], none⟩ =
      .error "Neither switches nor permanent signal state were given" ∧
    classifyProgramRow ["K1"] ⟨"K2", [], none⟩ = .ok .skipped := by
  constructor
  · exact (programRow_requires_switches_or_permanent ["K1"] ⟨"K1", [], none⟩).1
      (by simp) rfl rfl
  · exact (programRow_requires_switches_or_permanent ["K1"] ⟨"K2", [], none⟩).2
      (by simp)

end OcitSumo
